import Mathlib

/-!
# Verification of the nreal_linux head-tracked viewer core (`src/main.py`)

Shallow embedding of the orientation-processing / viewport loop of
`src/main.py`.  Python floats are modelled as exact rationals (`ℚ`); time
instants are rationals.  Stateful code is modelled by explicit state
passing; the per-cycle body of the main loop becomes a pure function from
(filter state, frame bytes, sensor slot, current time) to a new state and
a cycle result.

Components the spec describes but that are absent from `src/main.py`
(the CalibrationMapper `normalize` and the ViewportCompositor `compose`)
are modelled from the spec's own words; their doc comments start with
`Modelled from the spec:`.
-/

namespace Nreal

/-! ## Constants (src/main.py lines 16–22) -/

def SCREEN_WIDTH : ℕ := 1920

def SCREEN_HEIGHT : ℕ := 1080

def NUM_INPUT_SCREENS : ℕ := 2

/-- `SMOOTHING_FACTOR = 0.2` (line 20). -/
def SMOOTHING_FACTOR : ℚ := 1/5

/-- `YAW_THRESHOLD = 5` (line 21). -/
def YAW_THRESHOLD : ℚ := 5

/-- `SWITCH_DELAY = 0.3` (line 22). -/
def SWITCH_DELAY : ℚ := 3/10

/-- Python's built-in `abs` on a rational, written executably. -/
def rabs (x : ℚ) : ℚ := if x < 0 then -x else x

theorem rabs_eq_abs (x : ℚ) : rabs x = |x| := by
  unfold rabs
  rcases lt_or_le x 0 with h | h
  · rw [if_pos h, abs_of_neg h]
  · rw [if_neg (not_lt.mpr h), abs_of_nonneg h]

/-! ## Filter state (globals `previous_yaw`, `last_update_time`, lines 23–24) -/

structure FilterState where
  previous_yaw : ℚ
  last_update_time : ℚ
deriving DecidableEq

/-- Lines 23–24: `previous_yaw = 0`, `last_update_time = time.time()`;
`t0` is the startup instant. -/
def initialState (t0 : ℚ) : FilterState := ⟨0, t0⟩

/-- Line 186: `yaw = previous_yaw * (1 - SMOOTHING_FACTOR) + yaw * SMOOTHING_FACTOR`. -/
def smooth (previous_yaw raw : ℚ) : ℚ :=
  previous_yaw * (1 - SMOOTHING_FACTOR) + raw * SMOOTHING_FACTOR

/-- Lines 186–193: the smoothing-plus-debounce step.  The source compares
against the wall clock twice (line 189 and line 193); both reads are
modelled as the single instant `now`.  Returns
(new state, accepted?, smoothed value). -/
def filterStep (st : FilterState) (raw now : ℚ) : FilterState × Bool × ℚ :=
  if rabs (smooth st.previous_yaw raw - st.previous_yaw) < YAW_THRESHOLD ∨
      now - st.last_update_time < SWITCH_DELAY then
    (st, false, smooth st.previous_yaw raw)
  else
    (⟨smooth st.previous_yaw raw, now⟩, true, smooth st.previous_yaw raw)

/-- `n`-fold smoothing against the constant input `c`
(the main loop's line 186 applied over successive cycles). -/
def smoothIter : ℕ → ℚ → ℚ → ℚ
  | 0, p, _ => p
  | n + 1, p, c => smoothIter n (smooth p c) c

/-! ## Theorems: filter (claims C1, C7, C9) -/

theorem filterStep_accept_aux (st : FilterState) (raw now : ℚ) :
    ((filterStep st raw now).2.1 = true ↔
      YAW_THRESHOLD ≤ |smooth st.previous_yaw raw - st.previous_yaw| ∧
      SWITCH_DELAY ≤ now - st.last_update_time) ∧
    ((filterStep st raw now).2.1 = true →
      (filterStep st raw now).1 = ⟨smooth st.previous_yaw raw, now⟩) := by
  have e := rabs_eq_abs (smooth st.previous_yaw raw - st.previous_yaw)
  unfold filterStep
  by_cases h : |smooth st.previous_yaw raw - st.previous_yaw| < YAW_THRESHOLD ∨
      now - st.last_update_time < SWITCH_DELAY
  · rw [if_pos (by rw [e]; exact h)]
    refine ⟨⟨fun hh => absurd hh (by simp), fun hp => ?_⟩,
      fun hh => absurd hh (by simp)⟩
    rcases h with h | h
    · exact absurd hp.1 (not_le.mpr h)
    · exact absurd hp.2 (not_le.mpr h)
  · rw [if_neg (by rw [e]; exact h)]
    push_neg at h
    exact ⟨⟨fun _ => h, fun _ => rfl⟩, fun _ => rfl⟩

/-- **C1.**  With `filtered = previous_yaw * (1 - 0.2) + raw * 0.2`, the
update is accepted iff `|filtered - previous_yaw| ≥ 5` and
`now - last_update_time ≥ 0.3` (both boundaries inclusive), and on
acceptance the state becomes `⟨filtered, now⟩`. -/
theorem filterStep_accept_iff (st : FilterState) (raw now : ℚ) :
    ((filterStep st raw now).2.1 = true ↔
      YAW_THRESHOLD ≤ |smooth st.previous_yaw raw - st.previous_yaw| ∧
      SWITCH_DELAY ≤ now - st.last_update_time) ∧
    ((filterStep st raw now).2.1 = true →
      (filterStep st raw now).1 = ⟨smooth st.previous_yaw raw, now⟩) :=
  filterStep_accept_aux st raw now

/-- Witness for C1: at `st = ⟨0, 0⟩`, `raw = 100`, `now = 1` the update is
accepted and the state becomes `⟨20, 1⟩`. -/
theorem filterStep_accept_iff_witness :
    (filterStep ⟨0, 0⟩ 100 1).2.1 = true ∧
    (filterStep ⟨0, 0⟩ 100 1).1 = ⟨20, 1⟩ := by
  have hacc : (filterStep ⟨0, 0⟩ 100 1).2.1 = true := by
    norm_num [filterStep, smooth, rabs, SMOOTHING_FACTOR, YAW_THRESHOLD,
      SWITCH_DELAY]
  refine ⟨hacc, ?_⟩
  have hst := (filterStep_accept_iff ⟨0, 0⟩ 100 1).2 hacc
  rw [hst]
  norm_num [smooth, SMOOTHING_FACTOR]

/-- **C7.**  One smoothing step moves the value by exactly
`0.2 * |raw - previous|`; against a constant input `c` one step shrinks the
distance to `c` by the factor `0.8`, and `n` steps shrink it by `0.8 ^ n`. -/
theorem smooth_step_bounds (p r c : ℚ) (n : ℕ) :
    |smooth p r - p| = SMOOTHING_FACTOR * |r - p| ∧
    |smooth p c - c| = (1 - SMOOTHING_FACTOR) * |p - c| ∧
    |smoothIter n p c - c| = (1 - SMOOTHING_FACTOR) ^ n * |p - c| := by
  have hstep : ∀ q : ℚ, |smooth q c - c| = (1 - SMOOTHING_FACTOR) * |q - c| := by
    intro q
    have h : smooth q c - c = (1 - SMOOTHING_FACTOR) * (q - c) := by
      unfold smooth SMOOTHING_FACTOR; ring
    rw [h, abs_mul,
      abs_of_pos (by norm_num [SMOOTHING_FACTOR] : (0:ℚ) < 1 - SMOOTHING_FACTOR)]
  refine ⟨?_, hstep p, ?_⟩
  · have h : smooth p r - p = SMOOTHING_FACTOR * (r - p) := by
      unfold smooth SMOOTHING_FACTOR; ring
    rw [h, abs_mul,
      abs_of_pos (by norm_num [SMOOTHING_FACTOR] : (0:ℚ) < SMOOTHING_FACTOR)]
  · induction n generalizing p with
    | zero => simp [smoothIter]
    | succ n ih =>
      calc |smoothIter (n + 1) p c - c|
          = (1 - SMOOTHING_FACTOR) ^ n * |smooth p c - c| := ih (smooth p c)
        _ = (1 - SMOOTHING_FACTOR) ^ n *
              ((1 - SMOOTHING_FACTOR) * |p - c|) := by rw [hstep p]
        _ = (1 - SMOOTHING_FACTOR) ^ (n + 1) * |p - c| := by ring

/-- **C9.**  `previous_yaw` starts at `0` and the calibration phase never
writes it, so the first sample is smoothed to `0.2 * raw`, and the first
update is accepted iff `|raw| ≥ 25` and at least `0.3` time-units have
passed since startup (`t0`). -/
theorem firstSample_accept_iff (t0 raw now : ℚ) :
    smooth (initialState t0).previous_yaw raw = SMOOTHING_FACTOR * raw ∧
    ((filterStep (initialState t0) raw now).2.1 = true ↔
      25 ≤ |raw| ∧ SWITCH_DELAY ≤ now - t0) := by
  constructor
  · show (0:ℚ) * (1 - SMOOTHING_FACTOR) + raw * SMOOTHING_FACTOR = _
    ring
  · rw [(filterStep_accept_aux (initialState t0) raw now).1]
    have habs : |smooth (initialState t0).previous_yaw raw -
        (initialState t0).previous_yaw| = SMOOTHING_FACTOR * |raw| := by
      have h : smooth (initialState t0).previous_yaw raw -
          (initialState t0).previous_yaw = SMOOTHING_FACTOR * raw := by
        show (0:ℚ) * (1 - SMOOTHING_FACTOR) + raw * SMOOTHING_FACTOR - 0 = _
        ring
      rw [h, abs_mul,
        abs_of_pos (by norm_num [SMOOTHING_FACTOR] : (0:ℚ) < SMOOTHING_FACTOR)]
    rw [habs]
    simp only [initialState]
    unfold SMOOTHING_FACTOR YAW_THRESHOLD
    constructor
    · rintro ⟨h1, h2⟩
      exact ⟨by linarith, h2⟩
    · rintro ⟨h1, h2⟩
      exact ⟨by linarith, h2⟩

/-! ## Sensor-line parsing (`get_pitch_roll_yaw`, lines 139–146)

The source runs `re.search(r"Yaw:\s*(-?\d+\.\d+)", input_str)` and, on a
match, returns `float(match.group(1))`.  The regex is deterministic (no
backtracking can change the result: whitespace, the minus sign, digits and
the dot are pairwise disjoint character classes), so it is embedded as a
direct left-to-right scanner: `searchYaw` tries each start position in
order and `matchYawAt` matches the pattern at one position with greedy
digit runs.  `\s` is modelled as ASCII whitespace and `\d` as ASCII
digits; the decimal literal is converted to an exact rational. -/

/-- ASCII whitespace, the characters matched by the regex class `\s`. -/
def isSpaceChar (c : Char) : Bool :=
  if c = ' ' ∨ c = '\t' ∨ c = '\n' ∨ c = '\r' ∨ c = '\x0b' ∨ c = '\x0c' then true
  else false

/-- Numeric value of a digit run (most significant first). -/
def digitsToNat (l : List Char) : ℕ :=
  l.foldl (fun acc c => 10 * acc + (c.toNat - '0'.toNat)) 0

/-- `float(...)` applied to the matched group `-?\d+\.\d+`, as an exact
rational. -/
def decimalValue (neg : Bool) (int frac : List Char) : ℚ :=
  let mag : ℚ := (digitsToNat int : ℚ) + (digitsToNat frac : ℚ) / (10 : ℚ) ^ frac.length
  if neg then -mag else mag

/-- Match `\.\d+` (the dot and the greedy fraction run) given the already
matched integer run `int`. -/
def matchFrac (neg : Bool) (int : List Char) (rest : List Char) : Option ℚ :=
  match rest with
  | c :: rest2 =>
    if c = '.' then
      if (rest2.takeWhile Char.isDigit).isEmpty then none
      else some (decimalValue neg int (rest2.takeWhile Char.isDigit))
    else none
  | [] => none

/-- Match `\d+\.\d+` at the head of `l` (greedy digit runs), the sign
already consumed. -/
def matchNumber (neg : Bool) (l : List Char) : Option ℚ :=
  if (l.takeWhile Char.isDigit).isEmpty then none
  else matchFrac neg (l.takeWhile Char.isDigit) (l.dropWhile Char.isDigit)

/-- Match `-?\d+\.\d+` (the optional sign, then the number). -/
def afterSpaces : List Char → Option ℚ
  | c :: cs => if c = '-' then matchNumber true cs else matchNumber false (c :: cs)
  | [] => none

/-- Match `\s*(-?\d+\.\d+)` at the head of `rest` (the part after the
literal `Yaw:`). -/
def afterYaw (rest : List Char) : Option ℚ :=
  afterSpaces (rest.dropWhile isSpaceChar)

/-- Match the whole pattern `Yaw:\s*(-?\d+\.\d+)` at the head of `l`. -/
def matchYawAt (l : List Char) : Option ℚ :=
  match l with
  | c1 :: c2 :: c3 :: c4 :: rest =>
    if c1 = 'Y' ∧ c2 = 'a' ∧ c3 = 'w' ∧ c4 = ':' then afterYaw rest
    else none
  | _ => none

/-- `re.search`: try the pattern at each start position, left to right. -/
def searchYaw : List Char → Option ℚ
  | [] => none
  | c :: cs =>
    match matchYawAt (c :: cs) with
    | some v => some v
    | none => searchYaw cs

/-- Lines 139–146: extract the yaw sample from one sensor line.  The
`try/except` around the match cannot fire (`float` always succeeds on a
string matched by the group), so the function is total. -/
def get_pitch_roll_yaw (input_str : List Char) : Option ℚ :=
  searchYaw input_str

/-! ### Spec-side description of the parsing rule (for claim C5)

The spec says: a line matches iff it contains a token of the form
`Yaw: <signed decimal>` (optional whitespace after the colon, optional
minus sign, digits, a dot, digits), and the sample is the numeric value of
the first such match. -/

/-- The token `Yaw:<spaces><sign><int>.<frac>`. -/
def yawTokenCore (spaces : List Char) (neg : Bool) (int frac : List Char) :
    List Char :=
  'Y' :: 'a' :: 'w' :: ':' ::
    (spaces ++ ((if neg then ['-'] else []) ++ (int ++ '.' :: frac)))

/-- Well-formedness of the token pieces: a whitespace run, then a signed
decimal with nonempty integer and fraction digit runs. -/
def IsYawToken (spaces int frac : List Char) : Prop :=
  (∀ c ∈ spaces, isSpaceChar c = true) ∧
  int ≠ [] ∧ (∀ c ∈ int, c.isDigit = true) ∧
  frac ≠ [] ∧ (∀ c ∈ frac, c.isDigit = true)

/-- The line contains a token of the form `Yaw: <signed decimal>`. -/
def ContainsYawToken (l : List Char) : Prop :=
  ∃ pre spaces neg int frac post,
    IsYawToken spaces int frac ∧
    l = (pre ++ yawTokenCore spaces neg int frac) ++ post

/-- A maximal (greedy) match of the token at start position `i`, with
value `v`; maximality of the fraction run is the `head?` condition. -/
def YawMatchAt (l : List Char) (i : ℕ) (v : ℚ) : Prop :=
  ∃ spaces neg int frac post,
    IsYawToken spaces int frac ∧
    l.drop i = yawTokenCore spaces neg int frac ++ post ∧
    (∀ c, post.head? = some c → c.isDigit = false) ∧
    v = decimalValue neg int frac

/-- `v` is the value of the first (leftmost, greedy) token in `l`. -/
def FirstYawValue (l : List Char) (v : ℚ) : Prop :=
  ∃ i, YawMatchAt l i v ∧ ∀ j < i, ∀ w, ¬ YawMatchAt l j w

/-! ### List helper lemmas -/

theorem dropWhile_head_not {α : Type} {p : α → Bool} {t : List α}
    (ht : ∀ c, t.head? = some c → p c = false) : t.dropWhile p = t := by
  cases t with
  | nil => rfl
  | cons c cs =>
    have hc := ht c List.head?_cons
    simp [List.dropWhile_cons, hc]

theorem takeWhile_head_not {α : Type} {p : α → Bool} {t : List α}
    (ht : ∀ c, t.head? = some c → p c = false) : t.takeWhile p = [] := by
  cases t with
  | nil => rfl
  | cons c cs =>
    have hc := ht c List.head?_cons
    simp [List.takeWhile_cons, hc]

theorem dropWhile_append_exact {α : Type} {p : α → Bool} {s t : List α}
    (hs : ∀ c ∈ s, p c = true) (ht : ∀ c, t.head? = some c → p c = false) :
    (s ++ t).dropWhile p = t := by
  induction s with
  | nil => simpa using dropWhile_head_not ht
  | cons c cs ih =>
    have hc : p c = true := hs c (List.mem_cons_self c cs)
    rw [List.cons_append, List.dropWhile_cons, if_pos hc]
    exact ih (fun d hd => hs d (List.mem_cons_of_mem c hd))

theorem takeWhile_append_exact {α : Type} {p : α → Bool} {s t : List α}
    (hs : ∀ c ∈ s, p c = true) (ht : ∀ c, t.head? = some c → p c = false) :
    (s ++ t).takeWhile p = s := by
  induction s with
  | nil => simpa using takeWhile_head_not ht
  | cons c cs ih =>
    have hc : p c = true := hs c (List.mem_cons_self c cs)
    rw [List.cons_append, List.takeWhile_cons, if_pos hc,
      ih (fun d hd => hs d (List.mem_cons_of_mem c hd))]

theorem head_dropWhile_false {α : Type} {p : α → Bool} (l : List α) :
    ∀ c, (l.dropWhile p).head? = some c → p c = false := by
  induction l with
  | nil => intro c h; simp at h
  | cons a as ih =>
    intro c h
    by_cases ha : p a = true
    · rw [List.dropWhile_cons, if_pos ha] at h
      exact ih c h
    · rw [List.dropWhile_cons, if_neg ha] at h
      rw [List.head?_cons, Option.some.injEq] at h
      rw [← h]
      exact Bool.not_eq_true _ ▸ ha

/-! ### Character-class facts -/

theorem isSpaceChar_of_isDigit {c : Char} (h : c.isDigit = true) :
    isSpaceChar c = false := by
  unfold isSpaceChar
  by_cases hc : c = ' ' ∨ c = '\t' ∨ c = '\n' ∨ c = '\r' ∨ c = '\x0b' ∨ c = '\x0c'
  · rcases hc with rfl | rfl | rfl | rfl | rfl | rfl <;> exact absurd h (by decide)
  · rw [if_neg hc]

/-! ### Characterization of `matchNumber` -/

theorem matchNumber_eq_some {neg : Bool} {l : List Char} {v : ℚ}
    (h : matchNumber neg l = some v) :
    ∃ int frac post, l = int ++ '.' :: (frac ++ post) ∧
      int ≠ [] ∧ (∀ c ∈ int, c.isDigit = true) ∧
      frac ≠ [] ∧ (∀ c ∈ frac, c.isDigit = true) ∧
      (∀ c, post.head? = some c → c.isDigit = false) ∧
      v = decimalValue neg int frac := by
  unfold matchNumber at h
  by_cases hint : (l.takeWhile Char.isDigit).isEmpty
  · rw [if_pos hint] at h
    exact Option.noConfusion h
  · rw [if_neg hint] at h
    rcases hdrop : l.dropWhile Char.isDigit with _ | ⟨c, rest2⟩ <;>
      rw [hdrop] at h
    · exact Option.noConfusion h
    · simp only [matchFrac] at h
      by_cases hc : c = '.'
      · rw [if_pos hc] at h
        subst hc
        by_cases hfrac : (rest2.takeWhile Char.isDigit).isEmpty
        · rw [if_pos hfrac] at h
          exact Option.noConfusion h
        · rw [if_neg hfrac] at h
          refine ⟨l.takeWhile Char.isDigit, rest2.takeWhile Char.isDigit,
            rest2.dropWhile Char.isDigit, ?_, ?_, ?_, ?_, ?_, ?_, ?_⟩
          · rw [List.takeWhile_append_dropWhile Char.isDigit rest2,
              ← hdrop, List.takeWhile_append_dropWhile Char.isDigit l]
          · intro he; rw [← List.isEmpty_iff] at he; exact hint he
          · exact fun d hd => List.mem_takeWhile_imp hd
          · intro he; rw [← List.isEmpty_iff] at he; exact hfrac he
          · exact fun d hd => List.mem_takeWhile_imp hd
          · exact head_dropWhile_false rest2
          · exact (Option.some.injEq _ _ ▸ h).symm
      · rw [if_neg hc] at h
        exact Option.noConfusion h

theorem matchNumber_complete {neg : Bool} {int frac post : List Char}
    (hint : int ≠ []) (hintd : ∀ c ∈ int, c.isDigit = true)
    (hfrac : frac ≠ []) (hfracd : ∀ c ∈ frac, c.isDigit = true)
    (hpost : ∀ c, post.head? = some c → c.isDigit = false) :
    matchNumber neg (int ++ '.' :: (frac ++ post)) =
      some (decimalValue neg int frac) := by
  have hdot : ∀ c : Char, ('.' :: (frac ++ post)).head? = some c →
      c.isDigit = false := by
    intro c h
    rw [List.head?_cons, Option.some.injEq] at h
    rw [← h]; decide
  have h1 : (int ++ '.' :: (frac ++ post)).takeWhile Char.isDigit = int :=
    takeWhile_append_exact hintd hdot
  have h2 : (int ++ '.' :: (frac ++ post)).dropWhile Char.isDigit =
      '.' :: (frac ++ post) := dropWhile_append_exact hintd hdot
  have h3 : (frac ++ post).takeWhile Char.isDigit = frac :=
    takeWhile_append_exact hfracd hpost
  have hie : int.isEmpty = false := by
    cases int with
    | nil => exact absurd rfl hint
    | cons a as => rfl
  have hfe : frac.isEmpty = false := by
    cases frac with
    | nil => exact absurd rfl hfrac
    | cons a as => rfl
  unfold matchNumber
  rw [h1, h2, hie]
  simp only [Bool.false_eq_true, if_false]
  simp only [matchFrac, h3, hfe, Bool.false_eq_true, if_false]
  rw [if_pos trivial]

theorem matchNumber_isSome {neg : Bool} {int frac post : List Char}
    (hint : int ≠ []) (hintd : ∀ c ∈ int, c.isDigit = true)
    (hfrac : frac ≠ []) (hfracd : ∀ c ∈ frac, c.isDigit = true) :
    (matchNumber neg (int ++ '.' :: (frac ++ post))).isSome = true := by
  have hsplit : frac ++ post =
      (frac ++ post.takeWhile Char.isDigit) ++ post.dropWhile Char.isDigit := by
    rw [List.append_assoc, List.takeWhile_append_dropWhile]
  rw [hsplit, matchNumber_complete hint hintd
    (by cases frac with
      | nil => exact absurd rfl hfrac
      | cons a as => simp
      : frac ++ post.takeWhile Char.isDigit ≠ [])
    (by intro c hc
        rcases List.mem_append.mp hc with hc | hc
        · exact hfracd c hc
        · exact List.mem_takeWhile_imp hc)
    (head_dropWhile_false post)]
  rfl

/-! ### Characterization of `afterYaw` and `matchYawAt` -/

theorem afterYaw_eq_some {rest : List Char} {v : ℚ}
    (h : afterYaw rest = some v) :
    ∃ spaces neg int frac post,
      IsYawToken spaces int frac ∧
      rest = spaces ++ ((if neg then ['-'] else []) ++
        (int ++ '.' :: (frac ++ post))) ∧
      (∀ c, post.head? = some c → c.isDigit = false) ∧
      v = decimalValue neg int frac := by
  have hsplit : rest = rest.takeWhile isSpaceChar ++ rest.dropWhile isSpaceChar :=
    (List.takeWhile_append_dropWhile isSpaceChar rest).symm
  have hspaces : ∀ c ∈ rest.takeWhile isSpaceChar, isSpaceChar c = true :=
    fun d hd => List.mem_takeWhile_imp hd
  unfold afterYaw at h
  rcases hdrop : rest.dropWhile isSpaceChar with _ | ⟨c, cs⟩ <;> rw [hdrop] at h
  · exact Option.noConfusion h
  · simp only [afterSpaces] at h
    by_cases hc : c = '-'
    · rw [if_pos hc] at h
      subst hc
      obtain ⟨int, frac, post, hcs, hint, hintd, hfrac, hfracd, hpost, hval⟩ :=
        matchNumber_eq_some h
      refine ⟨rest.takeWhile isSpaceChar, true, int, frac, post,
        ⟨hspaces, hint, hintd, hfrac, hfracd⟩, ?_, hpost, hval⟩
      conv_lhs => rw [hsplit, hdrop, hcs]
      simp
    · rw [if_neg hc] at h
      obtain ⟨int, frac, post, hcs, hint, hintd, hfrac, hfracd, hpost, hval⟩ :=
        matchNumber_eq_some h
      refine ⟨rest.takeWhile isSpaceChar, false, int, frac, post,
        ⟨hspaces, hint, hintd, hfrac, hfracd⟩, ?_, hpost, hval⟩
      conv_lhs => rw [hsplit, hdrop, hcs]
      simp

theorem afterYaw_isSome {spaces : List Char} {neg : Bool} {int frac post : List Char}
    (hsp : ∀ c ∈ spaces, isSpaceChar c = true)
    (hint : int ≠ []) (hintd : ∀ c ∈ int, c.isDigit = true)
    (hfrac : frac ≠ []) (hfracd : ∀ c ∈ frac, c.isDigit = true) :
    (afterYaw (spaces ++ ((if neg then ['-'] else []) ++
      (int ++ '.' :: (frac ++ post))))).isSome = true := by
  cases neg with
  | true =>
    have hdrop : (spaces ++ ((if (true : Bool) then ['-'] else []) ++
        (int ++ '.' :: (frac ++ post)))).dropWhile isSpaceChar =
        '-' :: (int ++ '.' :: (frac ++ post)) := by
      rw [if_pos rfl]
      apply dropWhile_append_exact hsp
      intro c hc
      rw [List.cons_append, List.head?_cons, Option.some.injEq] at hc
      rw [← hc]; decide
    unfold afterYaw
    rw [hdrop]
    simp only [afterSpaces, if_pos rfl]
    exact matchNumber_isSome hint hintd hfrac hfracd
  | false =>
    rcases hint' : int with _ | ⟨d, ds⟩
    · exact absurd hint' hint
    · subst hint'
      have hd : d.isDigit = true := hintd d (List.mem_cons_self d ds)
      have hdrop : (spaces ++ ((if (false : Bool) then ['-'] else []) ++
          ((d :: ds) ++ '.' :: (frac ++ post)))).dropWhile isSpaceChar =
          d :: (ds ++ '.' :: (frac ++ post)) := by
      -- the sign slot is empty, the head is the first integer digit
        rw [if_neg (by simp : ¬(false = true))]
        rw [List.nil_append]
        apply dropWhile_append_exact hsp
        intro c hc
        rw [List.cons_append, List.head?_cons, Option.some.injEq] at hc
        rw [← hc]
        exact isSpaceChar_of_isDigit hd
      unfold afterYaw
      rw [hdrop]
      simp only [afterSpaces]
      have hdne : ¬(d = '-') := by
        intro he
        rw [he] at hd
        exact absurd hd (by decide)
      rw [if_neg hdne]
      have hsh : d :: (ds ++ '.' :: (frac ++ post)) =
          (d :: ds) ++ '.' :: (frac ++ post) := by simp
      rw [hsh]
      exact matchNumber_isSome hint hintd hfrac hfracd

theorem matchYawAt_eq_some {l : List Char} {v : ℚ}
    (h : matchYawAt l = some v) :
    ∃ spaces neg int frac post,
      IsYawToken spaces int frac ∧
      l = yawTokenCore spaces neg int frac ++ post ∧
      (∀ c, post.head? = some c → c.isDigit = false) ∧
      v = decimalValue neg int frac := by
  rcases l with _ | ⟨c1, _ | ⟨c2, _ | ⟨c3, _ | ⟨c4, rest⟩⟩⟩⟩
  · exact Option.noConfusion h
  · exact Option.noConfusion h
  · exact Option.noConfusion h
  · exact Option.noConfusion h
  · simp only [matchYawAt] at h
    by_cases hc : c1 = 'Y' ∧ c2 = 'a' ∧ c3 = 'w' ∧ c4 = ':'
    · rw [if_pos hc] at h
      obtain ⟨rfl, rfl, rfl, rfl⟩ := hc
      obtain ⟨spaces, neg, int, frac, post, htok, hrest, hpost, hval⟩ :=
        afterYaw_eq_some h
      refine ⟨spaces, neg, int, frac, post, htok, ?_, hpost, hval⟩
      unfold yawTokenCore
      rw [hrest]
      simp [List.append_assoc]
    · rw [if_neg hc] at h
      exact Option.noConfusion h

theorem matchYawAt_isSome {spaces : List Char} {neg : Bool}
    {int frac post : List Char} (htok : IsYawToken spaces int frac) :
    (matchYawAt (yawTokenCore spaces neg int frac ++ post)).isSome = true := by
  obtain ⟨hsp, hint, hintd, hfrac, hfracd⟩ := htok
  have hshape : yawTokenCore spaces neg int frac ++ post =
      'Y' :: 'a' :: 'w' :: ':' ::
        (spaces ++ ((if neg then ['-'] else []) ++
          (int ++ '.' :: (frac ++ post)))) := by
    unfold yawTokenCore
    simp [List.append_assoc]
  rw [hshape]
  simp only [matchYawAt]
  rw [if_pos (show True ∧ True ∧ True ∧ True from
    ⟨trivial, trivial, trivial, trivial⟩)]
  exact afterYaw_isSome hsp hint hintd hfrac hfracd

/-! ### Characterization of `searchYaw` -/

theorem searchYaw_cons_none {c : Char} {cs : List Char}
    (hm : matchYawAt (c :: cs) = none) :
    searchYaw (c :: cs) = searchYaw cs := by
  simp only [searchYaw, hm]

theorem searchYaw_cons_some {c : Char} {cs : List Char} {w : ℚ}
    (hm : matchYawAt (c :: cs) = some w) :
    searchYaw (c :: cs) = some w := by
  simp only [searchYaw, hm]

theorem searchYaw_eq_some {l : List Char} {v : ℚ} (h : searchYaw l = some v) :
    ∃ i, matchYawAt (l.drop i) = some v ∧
      ∀ j < i, matchYawAt (l.drop j) = none := by
  induction l with
  | nil => exact Option.noConfusion h
  | cons c cs ih =>
    rcases hm : matchYawAt (c :: cs) with _ | w
    · rw [searchYaw_cons_none hm] at h
      obtain ⟨i, hi, hj⟩ := ih h
      refine ⟨i + 1, by rw [List.drop_succ_cons]; exact hi, ?_⟩
      intro j hji
      cases j with
      | zero => rw [List.drop_zero]; exact hm
      | succ j' =>
        rw [List.drop_succ_cons]
        exact hj j' (Nat.lt_of_succ_lt_succ hji)
    · rw [searchYaw_cons_some hm] at h
      injection h with h
      subst h
      refine ⟨0, by rw [List.drop_zero]; exact hm, ?_⟩
      intro j hj
      exact absurd hj (Nat.not_lt_zero j)

theorem searchYaw_isSome_of {l : List Char} {i : ℕ}
    (h : (matchYawAt (l.drop i)).isSome = true) :
    (searchYaw l).isSome = true := by
  induction l generalizing i with
  | nil =>
    rw [List.drop_nil] at h
    exact absurd h (by simp [matchYawAt])
  | cons c cs ih =>
    rcases hm : matchYawAt (c :: cs) with _ | w
    · rw [searchYaw_cons_none hm]
      cases i with
      | zero =>
        rw [List.drop_zero, hm] at h
        exact absurd h (by simp)
      | succ j =>
        rw [List.drop_succ_cons] at h
        exact ih h
    · rw [searchYaw_cons_some hm]
      rfl

/-! ### Theorem: parsing (claim C5) -/

/-- **C5.**  A line yields a yaw sample iff it contains a token of the
form `Yaw: <signed decimal>` (`Yaw:` then optional whitespace, an optional
minus sign, digits, a dot, digits), and the returned sample is the numeric
value of the first (leftmost, greedy) such match. -/
theorem get_pitch_roll_yaw_spec (l : List Char) :
    ((get_pitch_roll_yaw l).isSome = true ↔ ContainsYawToken l) ∧
    (∀ v, get_pitch_roll_yaw l = some v → FirstYawValue l v) := by
  constructor
  · constructor
    · intro h
      obtain ⟨v, hv⟩ := Option.isSome_iff_exists.mp h
      obtain ⟨i, hi, -⟩ := searchYaw_eq_some hv
      obtain ⟨spaces, neg, int, frac, post, htok, heq, -, -⟩ :=
        matchYawAt_eq_some hi
      refine ⟨l.take i, spaces, neg, int, frac, post, htok, ?_⟩
      rw [List.append_assoc, ← heq, List.take_append_drop]
    · rintro ⟨pre, spaces, neg, int, frac, post, htok, rfl⟩
      have hdrop : ((pre ++ yawTokenCore spaces neg int frac) ++ post).drop
          pre.length = yawTokenCore spaces neg int frac ++ post := by
        rw [List.append_assoc]
        exact List.drop_left pre _
      have hm : (matchYawAt (((pre ++ yawTokenCore spaces neg int frac) ++
          post).drop pre.length)).isSome = true := by
        rw [hdrop]
        exact matchYawAt_isSome htok
      exact searchYaw_isSome_of hm
  · intro v hv
    obtain ⟨i, hi, hnone⟩ := searchYaw_eq_some hv
    obtain ⟨spaces, neg, int, frac, post, htok, heq, hpost, hval⟩ :=
      matchYawAt_eq_some hi
    refine ⟨i, ⟨spaces, neg, int, frac, post, htok, heq, hpost, hval⟩, ?_⟩
    intro j hj w hw
    obtain ⟨spaces2, neg2, int2, frac2, post2, htok2, heq2, -, -⟩ := hw
    have hsome : (matchYawAt (l.drop j)).isSome = true := by
      rw [heq2]
      exact matchYawAt_isSome htok2
    rw [hnone j hj] at hsome
    exact absurd hsome (by simp)

/-- Witness for C5: the line `Yaw: 12.5` contains the token and its first
match has value `12.5`. -/
theorem get_pitch_roll_yaw_spec_witness :
    ContainsYawToken ['Y', 'a', 'w', ':', ' ', '1', '2', '.', '5'] ∧
    FirstYawValue ['Y', 'a', 'w', ':', ' ', '1', '2', '.', '5'] (25/2) := by
  have h : get_pitch_roll_yaw ['Y', 'a', 'w', ':', ' ', '1', '2', '.', '5'] =
      some (25/2) := by
    simp [get_pitch_roll_yaw, searchYaw, matchYawAt, afterYaw, afterSpaces,
      matchNumber, matchFrac, List.takeWhile, List.dropWhile, isSpaceChar]
    norm_num [decimalValue, digitsToNat, List.foldl,
      (by decide : '1'.toNat - '0'.toNat = 1),
      (by decide : '2'.toNat - '0'.toNat = 2),
      (by decide : '5'.toNat - '0'.toNat = 5)]
  exact ⟨(get_pitch_roll_yaw_spec _).1.mp (by rw [h]; rfl),
    (get_pitch_roll_yaw_spec _).2 _ h⟩


/-! ## The shared slot and the reader thread (lines 133–137) -/

/-- `collections.deque(maxlen=n).append`: appending drops elements from the
left so that at most `maxlen` remain. -/
def dequeAppend (maxlen : ℕ) (q : List (List Char)) (line : List Char) :
    List (List Char) :=
  (q ++ [line]).drop ((q ++ [line]).length - maxlen)

/-- Lines 135–137 with line 133 (`q = collections.deque(maxlen=1)`): the
reader thread appends every line it reads to the one-slot deque — it does
no parsing, so unparseable lines are published like any others. -/
def read_output_step (q : List (List Char)) (line : List Char) :
    List (List Char) :=
  dequeAppend 1 q line

theorem read_output_step_eq (q : List (List Char)) (line : List Char) :
    read_output_step q line = [line] := by
  unfold read_output_step dequeAppend
  have hlen : (q ++ [line]).length - 1 = q.length := by
    rw [List.length_append]
    rfl
  rw [hlen]
  exact List.drop_left q [line]

/-! ## One iteration of the main loop (lines 173–208) -/

/-- What a cycle did: `crashed` = an uncaught exception escaped the loop,
`skipped` = the cycle ended with no presentation (bare `continue` or the
`if q:` guard failing), `presented` = the frame was blitted and shown. -/
inductive CycleResult where
  | crashed
  | skipped
  | presented
deriving DecidableEq

structure CycleOutput where
  state : FilterState
  result : CycleResult
  frameConsumed : Bool
deriving DecidableEq

/-- The byte length `Image.frombytes` (line 177) requires:
`SCREEN_WIDTH * NUM_INPUT_SCREENS` by `SCREEN_HEIGHT`, RGB. -/
def expectedFrameLen : ℕ :=
  SCREEN_WIDTH * NUM_INPUT_SCREENS * SCREEN_HEIGHT * 3

/-- Lines 173–208: one iteration of the main loop.
* The fifo read (lines 174–175) happens first, so the frame is consumed
  in every case.
* `Image.frombytes` (line 177) raises `ValueError` (`not enough image
  data`) only on a buffer **shorter** than `expectedFrameLen`; PIL's raw
  decoder silently ignores trailing bytes, so an over-length buffer
  decodes from its first `expectedFrameLen` bytes and the cycle proceeds.
  The raising call sits **outside** the `try` that starts at line 180, so
  the exception is uncaught: `crashed`.
* `if q:` (line 179): an empty slot skips the cycle.
* Parse failure (line 182–183) `continue`s.
* The debounce rejection (lines 189–190) `continue`s leaving the globals
  unchanged; acceptance (lines 192–199) updates them and presents.
The wall clock is modelled as the single instant `now`. -/
def mainCycle (st : FilterState) (raw_image : List ℕ)
    (slot : List (List Char)) (now : ℚ) : CycleOutput :=
  if raw_image.length < expectedFrameLen then
    ⟨st, .crashed, true⟩
  else if slot.isEmpty then
    ⟨st, .skipped, true⟩
  else
    match get_pitch_roll_yaw slot.flatten with
    | none => ⟨st, .skipped, true⟩
    | some raw =>
      if (filterStep st raw now).2.1 then
        ⟨(filterStep st raw now).1, .presented, true⟩
      else
        ⟨st, .skipped, true⟩

/-! ## The calibration wait loop (lines 161–171) -/

/-- Lines 161–171: the startup calibration wait.  Each element of `obs` is
one observation of the slot `q` inside the 10-time-unit window (the window
is time-bounded, hence a finite list).  The loop body only reads `q` and
parses; it returns the first successfully parsed value, or `None` when the
window closes without one — there is no error path, and it never touches
`previous_yaw` or `last_update_time`. -/
def calibrate : List (List (List Char)) → Option ℚ
  | [] => none
  | slot :: rest =>
    if slot.isEmpty then calibrate rest
    else
      match get_pitch_roll_yaw slot.flatten with
      | some v => some v
      | none => calibrate rest

/-- The program state around the loop: `initial_yaw_value` (lines 163,
167) next to the filter globals. -/
structure ProgState where
  initial_yaw_value : Option ℚ
  filter : FilterState

/-- The main-loop body lifted to the full program state: faithful to the
source, it never reads `initial_yaw_value` (the variable does not occur
after line 169). -/
def mainCycleP (p : ProgState) (raw_image : List ℕ)
    (slot : List (List Char)) (now : ℚ) : ProgState × CycleResult :=
  (⟨p.initial_yaw_value, (mainCycle p.filter raw_image slot now).state⟩,
    (mainCycle p.filter raw_image slot now).result)

/-! ### Theorems: per-cycle behaviour (claims C4, C6, C8, C10) -/

/-- Counterexample to C4.  The claim says a frame read of the wrong byte
length aborts only that cycle and the loop continues; in the source
`Image.frombytes` is called at line 177, *outside* the `try` that starts
at line 180, so on a short buffer the `ValueError` is uncaught and the
loop dies.  At the concrete input (an empty read, `0 < 12441600` bytes)
the cycle result is `crashed`, not `skipped`. -/
theorem frameRead_short_counterexample :
    (mainCycle ⟨0, 0⟩ [] [] 0).result = CycleResult.crashed ∧
    (mainCycle ⟨0, 0⟩ [] [] 0).result ≠ CycleResult.skipped := by
  constructor <;> decide

/-- C4 as amended: a cycle whose frame read yields a byte buffer
**shorter** than `width * height * 3` raises an uncaught exception
(`Image.frombytes` raises `not enough image data` outside the `try`) —
the filter state is left unchanged, nothing is presented, and the loop
does **not** continue (the process crashes); the frame was still
consumed.  A buffer of length at least `width * height * 3` decodes
(PIL's raw decoder ignores trailing bytes) and the cycle proceeds
without crashing. -/
theorem frameRead_short_crashes (st : FilterState) (raw_image : List ℕ)
    (slot : List (List Char)) (now : ℚ) :
    (raw_image.length < expectedFrameLen →
      mainCycle st raw_image slot now = ⟨st, .crashed, true⟩) ∧
    (expectedFrameLen ≤ raw_image.length →
      (mainCycle st raw_image slot now).result ≠ CycleResult.crashed) := by
  constructor
  · intro h
    unfold mainCycle
    rw [if_pos h]
  · intro h
    unfold mainCycle
    rw [if_neg (not_lt.mpr h)]
    by_cases he : slot.isEmpty
    · rw [if_pos he]
      simp
    · rw [if_neg he]
      rcases hp : get_pitch_roll_yaw slot.flatten with _ | raw
      · simp
      · by_cases ha : (filterStep st raw now).2.1 = true
        · simp [ha]
        · simp [ha]

/-- Witness for the amended C4: a one-byte read crashes; an over-length
read (one byte of padding past the expected length) does not crash. -/
theorem frameRead_short_crashes_witness :
    mainCycle ⟨0, 0⟩ [0] [] 0 = ⟨⟨0, 0⟩, .crashed, true⟩ ∧
    (mainCycle ⟨0, 0⟩ (List.replicate (expectedFrameLen + 1) 0) [] 0).result ≠
      CycleResult.crashed :=
  ⟨(frameRead_short_crashes ⟨0, 0⟩ [0] [] 0).1 (by decide),
   (frameRead_short_crashes ⟨0, 0⟩ (List.replicate (expectedFrameLen + 1) 0)
      [] 0).2
     (by rw [List.length_replicate]; exact Nat.le_succ _)⟩

/-- Counterexample to C6.  The claim says a line with no extractable yaw
leaves the shared slot unchanged; in the source the reader thread
(lines 135–137) appends every line to the maxlen-1 deque without parsing,
so the unparseable line `noise` replaces the previously published line
`Yaw:1.0`. -/
theorem parseFailure_slot_counterexample :
    get_pitch_roll_yaw ['n', 'o', 'i', 's', 'e'] = none ∧
    read_output_step [['Y', 'a', 'w', ':', '1', '.', '0']]
        ['n', 'o', 'i', 's', 'e'] ≠
      [['Y', 'a', 'w', ':', '1', '.', '0']] := by
  constructor
  · simp [get_pitch_roll_yaw, searchYaw, matchYawAt]
  · decide

/-- C6 as amended: the reader thread publishes **every** line — after any
append the slot holds exactly the new line, so an unparseable line
replaces the previous orientation line; the parse failure is then detected
in the main loop, which skips that cycle with the filter state unchanged
(the previously published line is no longer available). -/
theorem read_output_overwrites (q : List (List Char)) (line : List Char) :
    read_output_step q line = [line] ∧
    (get_pitch_roll_yaw line = none →
      ∀ (st : FilterState) (raw_image : List ℕ) (now : ℚ),
        raw_image.length = expectedFrameLen →
        mainCycle st raw_image [line] now = ⟨st, .skipped, true⟩) := by
  refine ⟨read_output_step_eq q line, ?_⟩
  intro hparse st raw_image now hlen
  unfold mainCycle
  rw [if_neg (by rw [hlen]; exact Nat.lt_irrefl _)]
  have hjoin : ([line] : List (List Char)).flatten = line := by
    simp
  rw [show ([line] : List (List Char)).isEmpty = false from rfl]
  simp only [Bool.false_eq_true, if_false]
  rw [hjoin, hparse]

/-- Witness for the amended C6: the slot `[Yaw:1.0]` becomes `[noise]`,
and the next cycle with that slot is skipped with the state unchanged. -/
theorem read_output_overwrites_witness :
    read_output_step [['Y', 'a', 'w', ':', '1', '.', '0']]
        ['n', 'o', 'i', 's', 'e'] = [['n', 'o', 'i', 's', 'e']] ∧
    mainCycle ⟨0, 0⟩ (List.replicate expectedFrameLen 0)
        [['n', 'o', 'i', 's', 'e']] 0 = ⟨⟨0, 0⟩, .skipped, true⟩ :=
  ⟨(read_output_overwrites [['Y', 'a', 'w', ':', '1', '.', '0']]
      ['n', 'o', 'i', 's', 'e']).1,
    (read_output_overwrites [['Y', 'a', 'w', ':', '1', '.', '0']]
      ['n', 'o', 'i', 's', 'e']).2
      (by simp [get_pitch_roll_yaw, searchYaw, matchYawAt]) ⟨0, 0⟩ _ 0
      (by simp)⟩

/-- **C8.**  A cycle in which the filter rejects the update (smoothed
change below threshold or too soon after the last accepted update) leaves
`previous_yaw` and `last_update_time` unchanged and presents nothing, yet
the frame was read and consumed from the capture stream. -/
theorem rejectedCycle_noop (st : FilterState) (raw_image : List ℕ)
    (slot : List (List Char)) (raw now : ℚ)
    (hlen : raw_image.length = expectedFrameLen)
    (hparse : get_pitch_roll_yaw slot.flatten = some raw)
    (hrej : (filterStep st raw now).2.1 = false) :
    mainCycle st raw_image slot now = ⟨st, .skipped, true⟩ := by
  unfold mainCycle
  rw [if_neg (by rw [hlen]; exact Nat.lt_irrefl _)]
  have hne : slot.isEmpty = false := by
    rcases slot with _ | ⟨a, as⟩
    · exact absurd hparse (by simp [get_pitch_roll_yaw, searchYaw])
    · rfl
  rw [hne]
  simp only [Bool.false_eq_true, if_false]
  rw [hparse]
  simp only [hrej, Bool.false_eq_true, if_false]

/-- Witness for C8: a well-formed frame, slot `[Yaw:1.0]` parsing to `1`,
rejected at `st = ⟨0, 0⟩`, `now = 1` (smoothed change `0.2 < 5`): the
cycle is a consumed no-op. -/
theorem rejectedCycle_noop_witness :
    mainCycle ⟨0, 0⟩ (List.replicate expectedFrameLen 0)
      [['Y', 'a', 'w', ':', '1', '.', '0']] 1 = ⟨⟨0, 0⟩, .skipped, true⟩ :=
  rejectedCycle_noop ⟨0, 0⟩ _ _ 1 1 (by simp)
    (by simp [get_pitch_roll_yaw, searchYaw, matchYawAt, afterYaw, afterSpaces,
        matchNumber, matchFrac, List.takeWhile, List.dropWhile, isSpaceChar]
        norm_num [decimalValue, digitsToNat, List.foldl,
          (by decide : '1'.toNat - '0'.toNat = 1),
          (by decide : '0'.toNat - '0'.toNat = 0)])
    (by norm_num [filterStep, smooth, rabs, SMOOTHING_FACTOR, YAW_THRESHOLD,
        SWITCH_DELAY])

/-- **C10.**  The startup calibration cannot fail: with no parseable line
during the window it returns `none` and the program proceeds into the main
loop (there is no error path), and the initial yaw value is never read by
any later step — main-loop cycles run from program states differing only
in `initial_yaw_value` behave identically. -/
theorem calibration_cannot_fail (obs : List (List (List Char)))
    (h : ∀ slot ∈ obs, get_pitch_roll_yaw slot.flatten = none) :
    calibrate obs = none ∧
    (∀ (v1 v2 : Option ℚ) (st : FilterState) (raw_image : List ℕ)
        (slot : List (List Char)) (now : ℚ),
      (mainCycleP ⟨v1, st⟩ raw_image slot now).1.filter =
        (mainCycleP ⟨v2, st⟩ raw_image slot now).1.filter ∧
      (mainCycleP ⟨v1, st⟩ raw_image slot now).2 =
        (mainCycleP ⟨v2, st⟩ raw_image slot now).2) := by
  constructor
  · induction obs with
    | nil => rfl
    | cons slot rest ih =>
      have hs := h slot (List.mem_cons_self slot rest)
      have hrest := ih (fun s hs2 => h s (List.mem_cons_of_mem slot hs2))
      unfold calibrate
      by_cases he : slot.isEmpty
      · rw [if_pos he]
        exact hrest
      · rw [if_neg he, hs]
        exact hrest
  · intro v1 v2 st raw_image slot now
    exact ⟨rfl, rfl⟩

/-- Witness for C10: one observation holding only the line `noise`. -/
theorem calibration_cannot_fail_witness :
    calibrate [[['n', 'o', 'i', 's', 'e']]] = none :=
  (calibration_cannot_fail [[['n', 'o', 'i', 's', 'e']]]
    (by intro s hs
        simp only [List.mem_singleton] at hs
        subst hs
        simp [get_pitch_roll_yaw, searchYaw, matchYawAt])).1

/-! ## CalibrationMapper (spec section 4.3)

`src/main.py` contains no calibration range and no mapping from yaw to a
pan coordinate (the loop blits the raw frame without panning), so the
mapper is modelled from the spec. -/

/-- Modelled from the spec: the CalibrationMapper `normalize` is missing
from `src/main.py`; the spec gives
`t = (yaw - range.left_yaw) / (range.right_yaw - range.left_yaw)`, then
`pan = -1 + t * 2`, clamped to `[-1, 1]`. -/
def normalize (left_yaw right_yaw yaw : ℚ) : ℚ :=
  max (-1) (min 1 (-1 + (yaw - left_yaw) / (right_yaw - left_yaw) * 2))

theorem normalize_t_mono (left_yaw right_yaw : ℚ) (y1 y2 : ℚ)
    (ht : (y1 - left_yaw) / (right_yaw - left_yaw) ≤
      (y2 - left_yaw) / (right_yaw - left_yaw)) :
    normalize left_yaw right_yaw y1 ≤ normalize left_yaw right_yaw y2 := by
  unfold normalize
  exact max_le_max (le_refl _) (min_le_min (le_refl _) (by linarith))

/-- **C3.**  With `left_yaw ≠ right_yaw`, `normalize` is the clamped
linear interpolation: it sends `left_yaw` to `-1` and `right_yaw` to `+1`,
is monotone in the interpolation parameter `t`, and is monotone
(respectively antitone) in yaw when `left_yaw < right_yaw`
(respectively `left_yaw > right_yaw`). -/
theorem normalize_spec (left_yaw right_yaw : ℚ) (h : left_yaw ≠ right_yaw) :
    normalize left_yaw right_yaw left_yaw = -1 ∧
    normalize left_yaw right_yaw right_yaw = 1 ∧
    (∀ y1 y2 : ℚ,
      (y1 - left_yaw) / (right_yaw - left_yaw) ≤
        (y2 - left_yaw) / (right_yaw - left_yaw) →
      normalize left_yaw right_yaw y1 ≤ normalize left_yaw right_yaw y2) ∧
    (left_yaw < right_yaw → Monotone (normalize left_yaw right_yaw)) ∧
    (right_yaw < left_yaw → Antitone (normalize left_yaw right_yaw)) := by
  have hne : right_yaw - left_yaw ≠ 0 := sub_ne_zero.mpr (Ne.symm h)
  refine ⟨?_, ?_, normalize_t_mono left_yaw right_yaw, ?_, ?_⟩
  · unfold normalize
    rw [sub_self, zero_div]
    norm_num
  · unfold normalize
    rw [div_self hne]
    norm_num
  · intro hlr y1 y2 hy
    apply normalize_t_mono
    exact (div_le_div_iff_of_pos_right
      (by linarith : 0 < right_yaw - left_yaw)).mpr (by linarith)
  · intro hrl y1 y2 hy
    apply normalize_t_mono
    exact div_le_div_of_nonpos_of_le (by linarith : right_yaw - left_yaw ≤ 0)
      (by linarith)

/-- Witness for C3 at the calibration range `(-30, 30)`. -/
theorem normalize_spec_witness :
    normalize (-30) 30 (-30) = -1 ∧ normalize (-30) 30 30 = 1 :=
  ⟨(normalize_spec (-30) 30 (by norm_num)).1,
   (normalize_spec (-30) 30 (by norm_num)).2.1⟩

/-! ## ViewportCompositor (spec section 4.4)

`src/main.py` never slices the source frame (lines 195–199 blit the whole
wide frame at `(0, 0)` regardless of yaw), so the compositor is modelled
from the spec.  A frame is a list of pixel rows; a well-formed source
frame has rows of length `2 * W` — `segment_A` is columns `[0, W)`,
`segment_B` is columns `[W, 2W)`. -/

/-- Modelled from the spec: one row of `segment_A`, columns `[0, W)`. -/
def segArow {α : Type} (W : ℕ) (row : List α) : List α := row.take W

/-- Modelled from the spec: one row of `segment_B`, columns `[W, 2W)`. -/
def segBrow {α : Type} (W : ℕ) (row : List α) : List α := (row.drop W).take W

/-- `segment_A` of a frame. -/
def segA {α : Type} (W : ℕ) (frame : List (List α)) : List (List α) :=
  frame.map (segArow W)

/-- `segment_B` of a frame. -/
def segB {α : Type} (W : ℕ) (frame : List (List α)) : List (List α) :=
  frame.map (segBrow W)

/-- The last `k` columns of a row. -/
def lastCols {α : Type} (k : ℕ) (row : List α) : List α :=
  row.drop (row.length - k)

/-- Modelled from the spec: the pixel shift `k = round(x · W)`. -/
def shiftK (x : ℚ) (W : ℕ) : ℕ := (round (x * (W : ℚ))).toNat

/-- Modelled from the spec: one output row.
For `pan ≤ 0`, with `k = round(|pan|·W)`:
`[last k columns of segment_A] ++ [first (W-k) columns of segment_B]`.
For `pan > 0`, with `k = round(pan·W)`:
`[last (W-k) columns of segment_B] ++ [first k columns of segment_A]`. -/
def composeRow {α : Type} (W : ℕ) (pan : ℚ) (row : List α) : List α :=
  if pan ≤ 0 then
    lastCols (shiftK (-pan) W) (segArow W row) ++
      (segBrow W row).take (W - shiftK (-pan) W)
  else
    lastCols (W - shiftK pan W) (segBrow W row) ++
      (segArow W row).take (shiftK pan W)

/-- Modelled from the spec: `compose(source_frame, pan)`, with the
defensive clamp of `pan` to `[-1, 1]`. -/
def compose {α : Type} (W : ℕ) (frame : List (List α)) (pan : ℚ) :
    List (List α) :=
  frame.map (composeRow W (max (-1) (min 1 pan)))

theorem shiftK_le (x : ℚ) (W : ℕ) (h1 : x ≤ 1) : shiftK x W ≤ W := by
  unfold shiftK
  have hle : round (x * (W : ℚ)) ≤ (W : ℤ) := by
    rw [round_eq]
    have hx : x * (W : ℚ) ≤ (W : ℚ) := by
      calc x * (W : ℚ) ≤ 1 * (W : ℚ) :=
            mul_le_mul_of_nonneg_right h1 (Nat.cast_nonneg W)
        _ = (W : ℚ) := one_mul _
    calc ⌊x * (W : ℚ) + 1 / 2⌋ ≤ ⌊(W : ℚ) + 1 / 2⌋ :=
          Int.floor_le_floor (by linarith)
      _ = (W : ℤ) := by
          rw [show ((W : ℚ) + 1 / 2) = ((W : ℤ) : ℚ) + 1 / 2 by push_cast; ring,
            Int.floor_int_add]
          norm_num
  exact Int.toNat_le.mpr hle

theorem composeRow_length {α : Type} (W : ℕ) (pan : ℚ) (row : List α)
    (hrow : row.length = 2 * W) (h0 : -1 ≤ pan) (h1 : pan ≤ 1) :
    (composeRow W pan row).length = W := by
  have hA : (segArow W row).length = W := by
    unfold segArow
    rw [List.length_take, hrow]
    omega
  have hB : (segBrow W row).length = W := by
    unfold segBrow
    rw [List.length_take, List.length_drop, hrow]
    omega
  unfold composeRow
  by_cases hp : pan ≤ 0
  · rw [if_pos hp]
    have hk : shiftK (-pan) W ≤ W := shiftK_le (-pan) W (by linarith)
    rw [List.length_append]
    unfold lastCols
    rw [List.length_drop, hA, List.length_take, hB]
    omega
  · rw [if_neg hp]
    have hk : shiftK pan W ≤ W := shiftK_le pan W h1
    rw [List.length_append]
    unfold lastCols
    rw [List.length_drop, hB, List.length_take, hA]
    omega

theorem composeRow_zero {α : Type} (W : ℕ) (row : List α) :
    composeRow W 0 row = segBrow W row := by
  unfold composeRow
  rw [if_pos (le_refl (0 : ℚ))]
  have hk : shiftK (-(0 : ℚ)) W = 0 := by
    unfold shiftK
    rw [neg_zero, zero_mul, round_zero]
    rfl
  rw [hk]
  unfold lastCols
  rw [Nat.sub_zero, List.drop_length, List.nil_append]
  unfold segBrow
  rw [List.take_take]
  congr 1
  omega

theorem composeRow_negOne {α : Type} (W : ℕ) (row : List α) :
    composeRow W (-1) row = segArow W row := by
  unfold composeRow
  rw [if_pos (by norm_num : (-1 : ℚ) ≤ 0)]
  have hk : shiftK (-(-1 : ℚ)) W = W := by
    unfold shiftK
    rw [neg_neg, one_mul, round_natCast]
    exact Int.toNat_natCast W
  rw [hk]
  unfold lastCols
  have hlen : (segArow W row).length ≤ W := by
    unfold segArow
    rw [List.length_take]
    omega
  rw [Nat.sub_eq_zero_of_le hlen, List.drop_zero, Nat.sub_self, List.take_zero,
    List.append_nil]

/-- **C2.**  For a well-formed source frame (rows of length `2W`) and any
`pan ∈ [-1, 1]`, the composed output has the source's row count with every
row of length `W`; `compose frame 0` is exactly `segment_B` and
`compose frame (-1)` is exactly `segment_A`. -/
theorem compose_spec {α : Type} (W : ℕ) (frame : List (List α)) (pan : ℚ)
    (hw : ∀ row ∈ frame, row.length = 2 * W)
    (hpan : -1 ≤ pan ∧ pan ≤ 1) :
    ((compose W frame pan).length = frame.length ∧
      ∀ row ∈ compose W frame pan, row.length = W) ∧
    compose W frame 0 = segB W frame ∧
    compose W frame (-1) = segA W frame := by
  refine ⟨⟨List.length_map _ _, ?_⟩, ?_, ?_⟩
  · intro row hrow
    unfold compose at hrow
    obtain ⟨r, hr, rfl⟩ := List.mem_map.mp hrow
    exact composeRow_length W _ r (hw r hr) (le_max_left _ _)
      (max_le (by norm_num) (min_le_left _ _))
  · unfold compose
    rw [show max (-1) (min 1 (0 : ℚ)) = 0 by norm_num]
    unfold segB
    congr 1
    funext r
    exact composeRow_zero W r
  · unfold compose
    rw [show max (-1) (min 1 (-1 : ℚ)) = -1 by norm_num]
    unfold segA
    congr 1
    funext r
    exact composeRow_negOne W r

/-- Witness for C2 at `W = 2`, one row `[1, 2, 3, 4]`, `pan = 1/2`. -/
theorem compose_spec_witness :
    ((compose 2 [[(1 : ℕ), 2, 3, 4]] (1/2)).length = 1 ∧
      ∀ row ∈ compose 2 [[(1 : ℕ), 2, 3, 4]] (1/2), row.length = 2) ∧
    compose 2 [[(1 : ℕ), 2, 3, 4]] 0 = segB 2 [[(1 : ℕ), 2, 3, 4]] ∧
    compose 2 [[(1 : ℕ), 2, 3, 4]] (-1) = segA 2 [[(1 : ℕ), 2, 3, 4]] :=
  compose_spec 2 [[(1 : ℕ), 2, 3, 4]] (1/2)
    (by intro row hr
        rw [List.mem_singleton] at hr
        subst hr
        rfl)
    (by norm_num)

end Nreal
